import Mathlib

/-!
Verification of the mental-poker deck/game engine (`src/deck.js`, `src/game.js`).

The elliptic-curve group is an external collaborator of the engine; following
the design it is modelled as a cyclic group of order `n`, realised as `ZMod n`
written multiplicatively: the source call `point.mul(scalar)` becomes
`scalar * point`, group addition `point.add(q)` becomes `point + q`, and the
bigint call `secret.invm(n)` becomes the executable modular inverse `invm`.
Scalars ("secrets") live in the same `ZMod n`; a valid secret is nonzero and
`n` is prime, as for the curve group order used by the source.

Decks, players and games are embedded structure by structure from the source;
randomness (the shuffle source and `Utils.getRandomPoints`) is made explicit
as parameters.
-/

namespace MentalPoker

/-- Number of cards in a deck, `Config.cardsInDeck` (52). -/
def cardsInDeck : ℕ := 52

/-- Model of an elliptic-curve point: an element of the cyclic group of order
`n`, written as `ZMod n`; scalar multiplication `p.mul(k)` is `k * p`. -/
abbrev Point (n : ℕ) := ZMod n

/-- Model of a scalar secret (`Secret` wraps a bignum in `[1, n-1]`). -/
abbrev Scalar (n : ℕ) := ZMod n

/-- Model of the external bignum operation `secret.invm(n)`: the modular
inverse of `a` modulo `n`, computed by exhaustive search so that it is
kernel-executable; it returns `0` when `a` has no inverse. -/
def invm {n : ℕ} (a : Scalar n) : Scalar n :=
  (((List.range n).find? (fun k : ℕ => a * ((k : ℕ) : ZMod n) == 1)).getD 0 : ℕ)

/-- Deck of cards: an ordered collection of points (`src/deck.js`). -/
structure Deck (n : ℕ) where
  points : List (Point n)
deriving DecidableEq

instance {n : ℕ} : Inhabited (Deck n) := ⟨⟨[]⟩⟩

/-- Source `Deck.encrypt`: multiplies every point by the secret. -/
def Deck.encrypt {n : ℕ} (d : Deck n) (secret : Scalar n) : Deck n :=
  ⟨d.points.map (fun point => secret * point)⟩

/-- Source `Deck.decrypt`: multiplies every point by the modular inverse of
the secret (`secret.invm(Config.ec.n)`). -/
def Deck.decrypt {n : ℕ} (d : Deck n) (secret : Scalar n) : Deck n :=
  ⟨d.points.map (fun point => invm secret * point)⟩

/-- Modelled from the spec: `Utils.shuffleArray` is not among the sources
(`utils.js` is absent; only `Deck.shuffle` calls it). Per the spec it draws a
uniformly random permutation from a cryptographically unpredictable source;
the randomness is made explicit as a list of draws, each interpreted modulo
the number of remaining elements, and the drawn element is extracted until
the draws run out. -/
def shuffleArray {α : Type} [DecidableEq α] : List ℕ → List α → List α
  | [], l => l
  | _ :: _, [] => []
  | r :: rs, x :: xs =>
    let y := (x :: xs).getD (r % (x :: xs).length) x
    y :: shuffleArray rs ((x :: xs).erase y)

/-- Source `Deck.shuffle`: shuffles the points with `Utils.shuffleArray`;
the random draws consumed by the shuffle are passed explicitly. -/
def Deck.shuffle {n : ℕ} (d : Deck n) (rand : List ℕ) : Deck n :=
  ⟨shuffleArray rand d.points⟩

/-- Source `Deck.lock`: multiplies the point at each position by the secret
at the same position (`this.points.map((point, i) => point.mul(secrets[i]))`). -/
def Deck.lock {n : ℕ} (d : Deck n) (secrets : List (Scalar n)) : Deck n :=
  ⟨List.zipWith (fun point secret => secret * point) d.points secrets⟩

/-- Source `Deck.unlockSingle`: takes the point at `index` and multiplies it
by the modular inverse of every secret in the given list, in order; an
out-of-range index is a failure (`undefined` in the source). -/
def Deck.unlockSingle {n : ℕ} (d : Deck n) (index : ℕ)
    (secrets : List (Scalar n)) : Option (Point n) :=
  (d.points[index]?).map
    (fun point => secrets.foldl (fun q secret => invm secret * q) point)

/-- Per-participant state (`src/player.js` is absent from the sources; the
fields are those used by `game.js` and the player test: `id`, `isSelf`,
`points` of length 52, `secrets` of length 53 whose last entry is the
shuffle key, `cards` in hand, `hasFolded`). -/
structure Player (n : ℕ) where
  id : ℕ
  isSelf : Bool
  points : List (Point n)
  secrets : List (Scalar n)
  cards : List ℕ
  hasFolded : Bool
deriving DecidableEq

instance {n : ℕ} : Inhabited (Player n) := ⟨⟨0, false, [], [], [], false⟩⟩

/-- Modelled from the spec: `Player.addCard` (`player.js` is absent; `drawCard`
calls it to add the drawn card to the hand of self). -/
def Player.addCard {n : ℕ} (p : Player n) (card : ℕ) : Player n :=
  { p with cards := p.cards ++ [card] }

/-- Modelled from the spec: `Player.addSecret` (`player.js` is absent; the
spec says the revealed secret of an opponent is recorded against that player
record at the given index for later verification). -/
def Player.addSecret {n : ℕ} (p : Player n) (index : ℕ) (secret : Scalar n) :
    Player n :=
  { p with secrets := p.secrets.set index secret }

/-- JavaScript `Array.prototype.indexOf` accumulator: index of the first
occurrence, `-1` when absent. -/
def jsIndexOfAux (x : ℕ) : List ℕ → ℕ → Int
  | [], _ => -1
  | y :: ys, acc => if y = x then (acc : Int) else jsIndexOfAux x ys (acc + 1)

/-- JavaScript `Array.prototype.indexOf`. The source guards
`if (this.unpickableCardIndexes.indexOf(index))` treat the result as a
truthiness test: every value except `0` passes the guard. -/
def jsIndexOf (l : List ℕ) (x : ℕ) : Int := jsIndexOfAux x l 0

/-- Game state (`src/game.js`); the community card list is named `cards` as in
the source, and the two nullable id lists are `Option`-valued. -/
structure Game (n : ℕ) where
  players : List (Player n)
  deckSequence : List (Deck n)
  unpickableCardIndexes : List ℕ
  cards : List ℕ
  disqualifiedPlayerIds : Option (List ℕ)
  winnerPlayerIds : Option (List ℕ)
deriving DecidableEq

/-- Source getter `Game.playerSelf`: the first player with `isSelf`; `none`
models the `undefined` of a game without a self player. -/
def Game.playerSelf {n : ℕ} (g : Game n) : Option (Player n) :=
  g.players.find? (fun p => p.isSelf)

/-- Source `Game` constructor loop that combines the player points into the
initial deck. The accumulator holds `none` for a deck slot not yet written
(`undefined` in the source); on a contribution of the wrong length the
source silently replaces the whole accumulator with fresh random points
(`Utils.getRandomPoints`, absent from the sources, made explicit as the
`fresh` parameter) and breaks out of the loop. -/
def combinePlayerPoints {n : ℕ} (fresh : List (Point n)) :
    List (List (Point n)) → List (Option (Point n)) → List (Option (Point n))
  | [], acc => acc
  | ps :: rest, acc =>
    if ps.length ≠ cardsInDeck then fresh.map some
    else
      combinePlayerPoints fresh rest
        (List.zipWith
          (fun o p => some (match o with | some q => q + p | none => p)) acc ps)

/-- Initial deck generation of the `Game` constructor (run when no
`deckSequence` is supplied): positionwise group sum of all player
contributions, starting from an all-`undefined` array of length 52. -/
def Game.generateInitialDeck {n : ℕ} (players : List (Player n))
    (fresh : List (Point n)) : List (Option (Point n)) :=
  combinePlayerPoints fresh (players.map (fun p => p.points))
    (List.replicate cardsInDeck none)

/-- Source `Game.getPickableCardIndexes`: all indexes of `[0, 52)` not yet in
`unpickableCardIndexes`, in ascending order (the source builds a `Set` of the
range and deletes the unpickable entries). -/
def Game.getPickableCardIndexes {n : ℕ} (g : Game n) : List ℕ :=
  (List.range cardsInDeck).filter (fun i => !(g.unpickableCardIndexes.contains i))

/-- Source `Game.addDeckToSequence`: a new game with the deck appended. -/
def Game.addDeckToSequence {n : ℕ} (g : Game n) (deck : Deck n) : Game n :=
  { g with deckSequence := g.deckSequence ++ [deck] }

/-- Source `Game.makeCardUnpickable`: a new game with the index appended. -/
def Game.makeCardUnpickable {n : ℕ} (g : Game n) (index : ℕ) : Game n :=
  { g with unpickableCardIndexes := g.unpickableCardIndexes ++ [index] }

/-- Source `Game.peekCard`. The opponent secrets object is modelled as an
association list (player id, secret); `Object.values` is `map Prod.snd`. The
guard is the literal source guard `if (indexOf(index)) return null`. The
unlocked point is matched against the points of `deckSequence[0]` scanning
from the highest index downwards, as the source loop does. -/
def Game.peekCard {n : ℕ} (g : Game n) (index : ℕ)
    (secretsOfOpponents : List (ℕ × Scalar n)) : Option ℕ :=
  if jsIndexOf g.unpickableCardIndexes index ≠ 0 then none
  else do
    let self ← g.playerSelf
    let selfSecret ← self.secrets[index]?
    let currentDeck ← g.deckSequence.getLast?
    let initialDeck ← g.deckSequence.head?
    let secrets := secretsOfOpponents.map Prod.snd ++ [selfSecret]
    let pointUnlocked ← currentDeck.unlockSingle index secrets
    (List.range initialDeck.points.length).reverse.find?
      (fun i => initialDeck.points.getD i 0 == pointUnlocked)

/-- Lookup of `secretsOfOpponents[player.id]`; `0` stands for the `undefined`
of a missing entry. -/
def lookupSecret {n : ℕ} (secretsOfOpponents : List (ℕ × Scalar n)) (pid : ℕ) :
    Scalar n :=
  ((secretsOfOpponents.find? (fun q => q.1 == pid)).map Prod.snd).getD 0

/-- Source `Game.drawCard`: peeks the card and, on success, adds it to the
hand of self and records each opponent secret; `none` models the `null`
return when the peek fails. -/
def Game.drawCard {n : ℕ} (g : Game n) (index : ℕ)
    (secretsOfOpponents : List (ℕ × Scalar n)) : Option (Game n) :=
  match g.peekCard index secretsOfOpponents with
  | none => none
  | some card =>
    some { g with players := g.players.map (fun p =>
      if p.isSelf then p.addCard card
      else p.addSecret index (lookupSecret secretsOfOpponents p.id)) }

/-- Source `Game.openCard`: peeks the card and, on success, appends it to the
community cards and records each opponent secret. -/
def Game.openCard {n : ℕ} (g : Game n) (index : ℕ)
    (secretsOfOpponents : List (ℕ × Scalar n)) : Option (Game n) :=
  match g.peekCard index secretsOfOpponents with
  | none => none
  | some card =>
    some { g with
      players := g.players.map (fun p =>
        if p.isSelf then p
        else p.addSecret index (lookupSecret secretsOfOpponents p.id)),
      cards := g.cards ++ [card] }

/-- Source `Game.disqualifyPlayer`, with the literal guard
`if (this.disqualifiedPlayerIds.indexOf(id)) return this`; `none` models the
crash on an undefined `disqualifiedPlayerIds`. -/
def Game.disqualifyPlayer {n : ℕ} (g : Game n) (pid : ℕ) : Option (Game n) :=
  match g.disqualifiedPlayerIds with
  | none => none
  | some l =>
    if jsIndexOf l pid ≠ 0 then some g
    else some { g with disqualifiedPlayerIds := some (l ++ [pid]) }

/-- Last secret of a player (`player.secrets[player.secrets.length - 1]`),
the shuffle-phase key. -/
def lastSecret {n : ℕ} (p : Player n) : Scalar n :=
  p.secrets.getD (p.secrets.length - 1) 0

/-- Modelled from the spec: `Game.shuffleDeck(player, false, deck)` as called
by `Game.verify` is absent from the sources (only its caller is). Per spec
section 4.5 verification re-runs the encryption of the claimed shuffle with
the revealed shuffle secret of that player, the permutation itself being
handled by the sorted comparison, so the non-appending form returns the deck
re-encrypted with the last secret of the player. -/
def Game.shuffleDeckFor {n : ℕ} (player : Player n) (deck : Deck n) : Deck n :=
  deck.encrypt (lastSecret player)

/-- Modelled from the spec: `Game.lockDeck(player, false, deck)` as called by
`Game.verify` is absent from the sources. Per spec sections 4.3 and 4.5 the
lock turn of a player removes that player shuffle mask (`decrypt` with the
last secret) and then locks positionwise with the per-card secrets, exactly
as `decryptAndLockDeck` does. -/
def Game.lockDeckFor {n : ℕ} (player : Player n) (deck : Deck n) : Deck n :=
  (deck.decrypt (lastSecret player)).lock player.secrets

/-- Order on points by canonical value, used by the sorted comparison. -/
def pointLE (n : ℕ) (a b : Point n) : Prop := a.val ≤ b.val

instance {n : ℕ} : DecidableRel (pointLE n) := fun a b => Nat.decLe a.val b.val

instance {n : ℕ} : IsTotal (Point n) (pointLE n) :=
  ⟨fun a b => Nat.le_total a.val b.val⟩

instance {n : ℕ} : IsTrans (Point n) (pointLE n) :=
  ⟨fun _ _ _ => Nat.le_trans⟩

instance {n : ℕ} [NeZero n] : IsAntisymm (Point n) (pointLE n) :=
  ⟨fun a b h1 h2 => ZMod.val_injective n (Nat.le_antisymm h1 h2)⟩

/-- Modelled from the spec: `Utils.sortPoints` is absent from the sources
(only `Game.verify` calls it); it sorts a point list by the canonical
encoding, here the canonical value. -/
def sortPoints {n : ℕ} (ps : List (Point n)) : List (Point n) :=
  List.insertionSort (pointLE n) ps

/-- Fairness check of `Game.verify` for the player at position `i`: the
shuffle step is checked by comparing the sorted point lists of the
re-encrypted deck `deckSequence[i]` and of `deckSequence[i+1]`, the lock step
by exact positional equality of the re-locked deck
`deckSequence[players.length + i]` and `deckSequence[players.length + i + 1]`. -/
def Game.fairAt {n : ℕ} (g : Game n) (i : ℕ) : Bool :=
  (sortPoints ((Game.shuffleDeckFor (g.players.getD i default)
        (g.deckSequence.getD i default)).points)
      == sortPoints ((g.deckSequence.getD (i + 1) default).points))
    && ((Game.lockDeckFor (g.players.getD i default)
        (g.deckSequence.getD (g.players.length + i) default)).points
      == (g.deckSequence.getD (g.players.length + i + 1) default).points)

/-- Source `Game.verify`: walks the players from the last to the first,
collecting the id of every player whose shuffle or lock step does not check
out; it returns the offending ids and leaves the game untouched (in
particular it does not write `disqualifiedPlayerIds`). The
`secretsOfOpponents` parameter is accepted and ignored, as in the source. -/
def Game.verify {n : ℕ} (g : Game n)
    (secretsOfOpponents : List (ℕ × Scalar n)) : List ℕ :=
  (((List.range g.players.length).reverse).filter (fun i => !(g.fairAt i))).map
    (fun i => (g.players.getD i default).id)

/-- Honest shuffle phase: for every player turn `i` the recorded deck
`deckSequence[i+1]` is a permutation of `deckSequence[i]` re-encrypted with
the revealed shuffle secret of player `i`. -/
abbrev Game.honestShuffles {n : ℕ} (g : Game n) : Prop :=
  ∀ i, i < g.players.length →
    ((g.deckSequence.getD (i + 1) default).points).Perm
      ((Game.shuffleDeckFor (g.players.getD i default)
        (g.deckSequence.getD i default)).points)

/-- Honest lock phase: for every player turn `i` the recorded deck
`deckSequence[players.length + i + 1]` is exactly
`deckSequence[players.length + i]` decrypted with the shuffle secret of
player `i` and re-locked positionwise with the revealed lock secrets. -/
abbrev Game.honestLocks {n : ℕ} (g : Game n) : Prop :=
  ∀ i, i < g.players.length →
    g.deckSequence.getD (g.players.length + i + 1) default =
      Game.lockDeckFor (g.players.getD i default)
        (g.deckSequence.getD (g.players.length + i) default)

/-- Correctness of the executable modular inverse: on a nonzero scalar modulo
a prime it agrees with the field inverse. -/
theorem invm_eq_inv {n : ℕ} [Fact (Nat.Prime n)] (a : Scalar n) (h : a ≠ 0) :
    invm a = a⁻¹ := by
  haveI : NeZero n := ⟨(Fact.out : Nat.Prime n).ne_zero⟩
  have hex : ∃ x ∈ List.range n,
      (fun k : ℕ => a * ((k : ℕ) : ZMod n) == 1) x = true := by
    refine ⟨(a⁻¹).val, List.mem_range.mpr (ZMod.val_lt _), ?_⟩
    simp only [beq_iff_eq]
    rw [ZMod.natCast_val, ZMod.cast_id]
    exact mul_inv_cancel₀ h
  obtain ⟨k, hk⟩ := Option.isSome_iff_exists.mp (List.find?_isSome.mpr hex)
  have hpk : a * (k : ZMod n) = 1 := by
    have := List.find?_some hk
    simpa using this
  unfold invm
  rw [hk]
  simp only [Option.getD_some]
  exact eq_inv_of_mul_eq_one_left (by rw [mul_comm]; exact hpk)

/-- Entry of a `zipWith` at a valid position of both lists. -/
theorem getD_zipWith {α β γ : Type} (f : α → β → γ) :
    ∀ (a : List α) (b : List β) (i : ℕ), i < a.length → i < b.length →
      ∀ (da : α) (db : β) (dc : γ),
      (List.zipWith f a b).getD i dc = f (a.getD i da) (b.getD i db)
  | _ :: _, _ :: _, 0, _, _, _, _, _ => rfl
  | _ :: xs, _ :: ys, (i + 1), h1, h2, da, db, dc =>
    getD_zipWith f xs ys i (by simpa using h1) (by simpa using h2) da db dc

/-- Product of the inverses of a scalar list modulo a prime. -/
theorem map_inv_prod {n : ℕ} [Fact (Nat.Prime n)] (l : List (Scalar n)) :
    (l.map (fun s => s⁻¹)).prod = l.prod⁻¹ := by
  induction l with
  | nil => simp
  | cons a t ih => simp [List.prod_cons, mul_inv, ih, mul_comm]

/-- Product of a list of nonzero scalars modulo a prime is nonzero. -/
theorem list_prod_ne_zero {n : ℕ} [Fact (Nat.Prime n)] (l : List (Scalar n))
    (h : ∀ x ∈ l, x ≠ 0) : l.prod ≠ 0 := by
  induction l with
  | nil => simp
  | cons a t ih =>
    simp only [List.prod_cons]
    exact mul_ne_zero (h a (by simp)) (ih fun x hx => h x (by simp [hx]))

/-- Unlock loop of `Deck.unlockSingle` as a product of inverses. -/
theorem foldl_invm_prod {n : ℕ} :
    ∀ (P : List (Scalar n)) (p : Point n),
      P.foldl (fun q secret => invm secret * q) p = (P.map invm).prod * p
  | [], p => by simp
  | s :: P, p => by
    rw [List.foldl_cons, foldl_invm_prod P (invm s * p), List.map_cons,
      List.prod_cons]
    ring

/-- Length of a locked deck. -/
theorem lock_points_length {n : ℕ} (d : Deck n) (l : List (Scalar n)) :
    (d.lock l).points.length = min d.points.length l.length := by
  simp [Deck.lock]

/-- Point of a locked deck at a valid position. -/
theorem lock_points_getD {n : ℕ} (d : Deck n) (l : List (Scalar n)) (i : ℕ)
    (hi1 : i < d.points.length) (hi2 : i < l.length) :
    (d.lock l).points.getD i 0 = l.getD i 0 * d.points.getD i 0 :=
  getD_zipWith (fun point secret => secret * point) d.points l i hi1 hi2 0 0 0

/-- Iterated locking: the deck keeps its length and the point at a valid
position accumulates the product of the per-position secrets. -/
theorem foldl_lock_getD {n : ℕ} :
    ∀ (ls : List (List (Scalar n))) (d : Deck n),
      d.points.length = cardsInDeck → (∀ l ∈ ls, l.length = cardsInDeck) →
      (ls.foldl Deck.lock d).points.length = cardsInDeck ∧
      ∀ i, i < cardsInDeck →
        (ls.foldl Deck.lock d).points.getD i 0 =
          (ls.map (fun l => l.getD i 0)).prod * d.points.getD i 0
  | [], _, hd, _ => ⟨hd, fun _ _ => by simp⟩
  | l :: ls, d, hd, hls => by
    have hl : l.length = cardsInDeck := hls l (by simp)
    have hlen : (d.lock l).points.length = cardsInDeck := by
      rw [lock_points_length, hd, hl, Nat.min_self]
    obtain ⟨h1, h2⟩ :=
      foldl_lock_getD ls (d.lock l) hlen (fun x hx => hls x (by simp [hx]))
    refine ⟨by simpa using h1, fun i hi => ?_⟩
    rw [List.foldl_cons, h2 i hi,
      lock_points_getD d l i (by omega) (by omega), List.map_cons,
      List.prod_cons]
    ring

/-- Sorting by canonical value is invariant under permutation. -/
theorem sortPoints_perm_congr {n : ℕ} [NeZero n] {l1 l2 : List (Point n)}
    (h : l1.Perm l2) : sortPoints l1 = sortPoints l2 :=
  List.eq_of_perm_of_sorted
    ((List.perm_insertionSort _ l1).trans
      (h.trans (List.perm_insertionSort _ l2).symm))
    (List.sorted_insertionSort _ l1) (List.sorted_insertionSort _ l2)

/-- An accumulator of at least one never yields index zero. -/
theorem jsIndexOfAux_ne_zero (x : ℕ) :
    ∀ (l : List ℕ) (acc : ℕ), 1 ≤ acc → jsIndexOfAux x l acc ≠ 0
  | [], _, _ => by simp [jsIndexOfAux]
  | y :: ys, acc, hacc => by
    unfold jsIndexOfAux
    by_cases hy : y = x
    · rw [if_pos hy]
      intro hcontra
      omega
    · rw [if_neg hy]
      exact jsIndexOfAux_ne_zero x ys (acc + 1) (by omega)

/-- Characterisation of the truthiness guard of the source: `indexOf` is `0`
exactly when the element heads the list. -/
theorem jsIndexOf_eq_zero_iff (l : List ℕ) (x : ℕ) :
    jsIndexOf l x = 0 ↔ l.head? = some x := by
  cases l with
  | nil => simp [jsIndexOf, jsIndexOfAux]
  | cons y ys =>
    unfold jsIndexOf jsIndexOfAux
    by_cases hy : y = x
    · simp [hy]
    · simp only [if_neg hy, List.head?_cons]
      constructor
      · intro h
        exact absurd h (jsIndexOfAux_ne_zero x ys 1 (by omega))
      · intro h
        exact absurd (Option.some.inj h) hy

/-- Shuffling by random extraction permutes the list. -/
theorem shuffleArray_perm {α : Type} [DecidableEq α] :
    ∀ (rand : List ℕ) (l : List α), (shuffleArray rand l).Perm l
  | [], l => List.Perm.refl l
  | _ :: _, [] => List.Perm.refl []
  | r :: rs, x :: xs => by
    simp only [shuffleArray]
    have hy : (x :: xs).getD (r % (x :: xs).length) x ∈ x :: xs := by
      rw [List.getD_eq_getElem _ _ (Nat.mod_lt _ (by simp))]
      exact List.getElem_mem _
    exact ((shuffleArray_perm rs _).cons _).trans (List.perm_cons_erase hy).symm

/-- Concrete deck for the C1 counterexample: 52 copies of the point 1 in the
group of order 5. -/
def deckC1 : Deck 5 := ⟨List.replicate 52 1⟩

/-- Concrete 52-secret list for the C1 counterexample: 52 copies of 2. -/
def secretsC1 : List (Scalar 5) := List.replicate 52 2

/-- Claim C1, counterexample: locking a 52-point deck with a 52-secret list
and then calling `unlockSingle(0, L)` with the same full list (a permutation
of itself) does not recover `points[0]`: `unlockSingle` inverts every
supplied secret, not only the one locked onto the position. -/
theorem claim_C1_counterexample :
    (deckC1.lock secretsC1).unlockSingle 0 secretsC1 ≠ deckC1.points[0]? := by
  decide

/-- Claim C1, amended: locking a 52-point deck successively with any number
of 52-secret lists (one lock round per player) and then calling
`unlockSingle(i, P)` with `P` any permutation of the secrets locked onto
position `i` (one per round, each nonzero, prime group order) recovers
`points[i]` exactly; the supplied order need not match the lock order. -/
theorem claim_C1_amended {n : ℕ} [Fact (Nat.Prime n)] (d : Deck n)
    (ls : List (List (Scalar n))) (P : List (Scalar n)) (i : ℕ)
    (hd : d.points.length = cardsInDeck)
    (hls : ∀ l ∈ ls, l.length = cardsInDeck)
    (hi : i < cardsInDeck)
    (hP : P.Perm (ls.map (fun l => l.getD i 0)))
    (hnz : ∀ l ∈ ls, l.getD i 0 ≠ 0) :
    (ls.foldl Deck.lock d).unlockSingle i P = d.points[i]? := by
  obtain ⟨hlen, hval⟩ := foldl_lock_getD ls d hd hls
  have hi2 : i < (List.foldl Deck.lock d ls).points.length := by omega
  have hi3 : i < d.points.length := by omega
  have hQ : ∀ x ∈ ls.map (fun l => l.getD i 0), x ≠ 0 := by
    intro x hx
    obtain ⟨l, hl, hlx⟩ := List.mem_map.mp hx
    exact hlx ▸ hnz l hl
  have hmapinv : (P.map invm).prod = ((ls.map (fun l => l.getD i 0)).prod)⁻¹ := by
    rw [(hP.map invm).prod_eq]
    have heq : (ls.map (fun l => l.getD i 0)).map invm =
        (ls.map (fun l => l.getD i 0)).map (fun s => s⁻¹) :=
      List.map_congr_left (fun x hx => invm_eq_inv x (hQ x hx))
    rw [heq, map_inv_prod]
  unfold Deck.unlockSingle
  rw [List.getElem?_eq_getElem hi2, List.getElem?_eq_getElem hi3]
  simp only [Option.map_some']
  congr 1
  rw [foldl_invm_prod, ← List.getD_eq_getElem _ 0 hi2,
    ← List.getD_eq_getElem _ 0 hi3, hval i hi, hmapinv, ← mul_assoc,
    inv_mul_cancel₀ (list_prod_ne_zero _ hQ), one_mul]

/-- Concrete deck for the C1 amended witness. -/
def deckC1w : Deck 5 := ⟨List.replicate 52 1⟩

/-- Concrete lock rounds for the C1 amended witness: two players locking with
constant secrets 2 and 3. -/
def locksC1w : List (List (Scalar 5)) :=
  [List.replicate 52 2, List.replicate 52 3]

/-- Claim C1, witness for the amended theorem: after two lock rounds,
supplying the two per-position secrets in reversed order recovers the
original point at index 0. -/
theorem claim_C1_amended_witness :
    List.Perm [(3 : Scalar 5), 2] (locksC1w.map (fun l => l.getD 0 0)) ∧
    (locksC1w.foldl Deck.lock deckC1w).unlockSingle 0 [3, 2] =
      deckC1w.points[0]? :=
  ⟨by decide,
    @claim_C1_amended 5 ⟨by norm_num⟩ deckC1w locksC1w [3, 2] 0 (by decide)
      (by decide) (by decide) (by decide) (by decide)⟩

/-- Claim C2: for every deck and every nonzero secret modulo the prime group
order, encrypting and then decrypting with the same secret is the identity,
point for point. -/
theorem claim_C2 {n : ℕ} [Fact (Nat.Prime n)] (d : Deck n) (s : Scalar n)
    (hs : s ≠ 0) : (d.encrypt s).decrypt s = d := by
  have hone : invm s * s = 1 := by
    rw [invm_eq_inv s hs, inv_mul_cancel₀ hs]
  have hpt : ∀ p : Point n, invm s * (s * p) = p := by
    intro p
    rw [← mul_assoc, hone, one_mul]
  cases d with
  | mk points =>
    simp [Deck.encrypt, Deck.decrypt, List.map_map, Function.comp, hpt, hone]

/-- Concrete deck for the C2 witness. -/
def deckC2 : Deck 5 := ⟨List.replicate 52 2⟩

/-- Claim C2, witness: encrypt then decrypt with secret 2 modulo 5 restores
the concrete deck. -/
theorem claim_C2_witness :
    (2 : Scalar 5) ≠ 0 ∧ (deckC2.encrypt 2).decrypt 2 = deckC2 :=
  ⟨by decide, @claim_C2 5 ⟨by norm_num⟩ deckC2 2 (by decide)⟩

/-- Malformed player for C3: a contributed point list of length 0 instead of
52. -/
def playerC3 : Player 5 := ⟨0, true, [], [], [], false⟩

/-- Fresh random points that the constructor substitutes on malformed input
(`Utils.getRandomPoints`), made concrete. -/
def freshC3 : List (Point 5) := List.replicate cardsInDeck 3

/-- Claim C3, failing input evaluated: on a player whose contributed point
list has the wrong length, initial deck generation silently substitutes the
fresh random points and succeeds; it raises no setup error, contradicting the
claimed `SetupError` behaviour. -/
theorem claim_C3 :
    Game.generateInitialDeck [playerC3] freshC3 = freshC3.map some := by
  decide

/-- Self player for the C4 games: lock secret 2 at index 0, shuffle secret 3. -/
def playerC4 : Player 5 := ⟨0, true, [2], [2, 3], [], false⟩

/-- Game for C4 with index 0 pickable (`unpickableCardIndexes = []`); the
current deck holds the initial point 2 locked with secret 2. -/
def gameC4pickable : Game 5 :=
  ⟨[playerC4], [⟨[2]⟩, ⟨[4]⟩], [], [], some [], none⟩

/-- Game for C4 with index 0 already unpickable. -/
def gameC4unpickable : Game 5 :=
  ⟨[playerC4], [⟨[2]⟩, ⟨[4]⟩], [0], [], some [], none⟩

/-- Claim C4, failing input evaluated: the truthiness guard
`if (indexOf(index))` is inverted, so `peekCard` returns `null` on a pickable
index with correct secrets, and succeeds on the very index recorded as
unpickable (the head of the list) — the opposite of the claim. -/
theorem claim_C4 :
    gameC4pickable.peekCard 0 [] = none ∧
    gameC4unpickable.peekCard 0 [] = some 0 := by
  decide

/-- Self player for the C5 games. -/
def playerC5 : Player 5 := ⟨0, true, [2], [2, 3], [], false⟩

/-- Game for C5 with index 0 pickable. -/
def gameC5pickable : Game 5 :=
  ⟨[playerC5], [⟨[2]⟩, ⟨[4]⟩], [], [], some [], none⟩

/-- Game for C5 on which the draw succeeds (index 0 heads the unpickable
list, the only way past the inverted guard). -/
def gameC5unpickable : Game 5 :=
  ⟨[playerC5], [⟨[2]⟩, ⟨[4]⟩], [0], [], some [], none⟩

/-- Expected result of the successful draw: card 0 is in the hand of self,
and `unpickableCardIndexes` is unchanged. -/
def gameC5drawn : Game 5 :=
  ⟨[⟨0, true, [2], [2, 3], [0], false⟩], [⟨[2]⟩, ⟨[4]⟩], [0], [], some [], none⟩

/-- Claim C5, failing input evaluated: `drawCard` and `openCard` return
`null` on a pickable index with correct secrets (the peek guard is
inverted), and a draw that does succeed leaves `unpickableCardIndexes`
unchanged — neither operation ever adds the index, contrary to the claim. -/
theorem claim_C5 :
    gameC5pickable.drawCard 0 [] = none ∧
    gameC5pickable.openCard 0 [] = none ∧
    gameC5unpickable.drawCard 0 [] = some gameC5drawn ∧
    gameC5drawn.unpickableCardIndexes =
      gameC5unpickable.unpickableCardIndexes := by
  decide

/-- Claim C7: the pickable indexes are exactly the indexes of `[0, 52)` not
in `unpickableCardIndexes` — the two lists are disjoint, and (for a reachable
game, whose unpickable indexes are card positions below 52) their union is
all of `[0, 52)`. -/
theorem claim_C7 {n : ℕ} (g : Game n)
    (hrange : ∀ x ∈ g.unpickableCardIndexes, x < cardsInDeck) :
    (∀ i, ¬(i ∈ g.getPickableCardIndexes ∧ i ∈ g.unpickableCardIndexes)) ∧
    (∀ i, (i ∈ g.getPickableCardIndexes ∨ i ∈ g.unpickableCardIndexes) ↔
      i < cardsInDeck) := by
  have hmem : ∀ i, i ∈ g.getPickableCardIndexes ↔
      (i < cardsInDeck ∧ i ∉ g.unpickableCardIndexes) := by
    intro i
    simp [Game.getPickableCardIndexes, List.mem_filter, List.mem_range]
  constructor
  · rintro i ⟨h1, h2⟩
    exact ((hmem i).mp h1).2 h2
  · intro i
    constructor
    · rintro (h | h)
      · exact ((hmem i).mp h).1
      · exact hrange i h
    · intro h
      by_cases hu : i ∈ g.unpickableCardIndexes
      · exact Or.inr hu
      · exact Or.inl ((hmem i).mpr ⟨h, hu⟩)

/-- Game for the C7 witness: two cards already unpickable. -/
def gameC7 : Game 5 := ⟨[], [], [3, 51], [], none, none⟩

/-- Claim C7, witness at a concrete game. -/
theorem claim_C7_witness :
    (∀ x ∈ gameC7.unpickableCardIndexes, x < cardsInDeck) ∧
    (∀ i, ¬(i ∈ gameC7.getPickableCardIndexes ∧
      i ∈ gameC7.unpickableCardIndexes)) ∧
    (∀ i, (i ∈ gameC7.getPickableCardIndexes ∨
      i ∈ gameC7.unpickableCardIndexes) ↔ i < cardsInDeck) :=
  ⟨by decide, (claim_C7 gameC7 (by decide)).1, (claim_C7 gameC7 (by decide)).2⟩

/-- Claim C8: shuffling returns a permutation of the points of the deck — the
multiset of points is preserved and the length is unchanged (hence stays 52
on a 52-card deck), for every outcome of the random draws. -/
theorem claim_C8 {n : ℕ} (d : Deck n) (rand : List ℕ) :
    ((d.shuffle rand).points).Perm d.points ∧
    (d.shuffle rand).points.length = d.points.length := by
  have hp : ((d.shuffle rand).points).Perm d.points :=
    shuffleArray_perm rand d.points
  exact ⟨hp, hp.length_eq⟩

/-- Claim C9: `addDeckToSequence` returns a game whose deck sequence is the
old one with the deck appended, every other field unchanged; the original
game value is untouched (the operation is a pure function on values). -/
theorem claim_C9 {n : ℕ} (g : Game n) (d : Deck n) :
    (g.addDeckToSequence d).deckSequence = g.deckSequence ++ [d] ∧
    (g.addDeckToSequence d).players = g.players ∧
    (g.addDeckToSequence d).unpickableCardIndexes =
      g.unpickableCardIndexes ∧
    (g.addDeckToSequence d).cards = g.cards ∧
    (g.addDeckToSequence d).disqualifiedPlayerIds =
      g.disqualifiedPlayerIds ∧
    (g.addDeckToSequence d).winnerPlayerIds = g.winnerPlayerIds :=
  ⟨rfl, rfl, rfl, rfl, rfl, rfl⟩

/-- Claim C10: with a defined disqualified list, `disqualifyPlayer` returns
the game unchanged when the id is absent (and more generally whenever the id
is not the head of the list), and appends — duplicating — exactly when the
element at position 0 already equals the id. -/
theorem claim_C10 {n : ℕ} (g : Game n) (l : List ℕ) (pid : ℕ)
    (hdef : g.disqualifiedPlayerIds = some l) :
    (pid ∉ l → g.disqualifyPlayer pid = some g) ∧
    (l.head? ≠ some pid → g.disqualifyPlayer pid = some g) ∧
    (l.head? = some pid →
      g.disqualifyPlayer pid =
        some { g with disqualifiedPlayerIds := some (l ++ [pid]) }) := by
  obtain ⟨pls, dseq, unp, cds, dq, win⟩ := g
  dsimp only at hdef
  subst hdef
  dsimp only [Game.disqualifyPlayer]
  by_cases hz : jsIndexOf l pid = 0
  · have hh := (jsIndexOf_eq_zero_iff l pid).mp hz
    rw [if_neg (not_not_intro hz)]
    refine ⟨?_, fun hne => absurd hh hne, fun _ => rfl⟩
    intro hnot
    exfalso
    cases l with
    | nil => exact Option.noConfusion hh
    | cons a t =>
      have ha : a = pid := by simpa using hh
      refine hnot ?_
      rw [← ha]
      exact List.mem_cons_self a t
  · rw [if_pos hz]
    refine ⟨fun _ => rfl, fun _ => rfl, fun hh => ?_⟩
    exact absurd ((jsIndexOf_eq_zero_iff l pid).mpr hh) hz

/-- Game for the C10 witness: player 7 already heads the disqualified list. -/
def gameC10 : Game 5 := ⟨[], [], [], [], some [7], none⟩

/-- Expected result of disqualifying 7 again: a duplicate is appended. -/
def gameC10dup : Game 5 := ⟨[], [], [], [], some [7, 7], none⟩

/-- Claim C10, witness: an absent id leaves the game unchanged, and the head
id is appended as a duplicate. -/
theorem claim_C10_witness :
    gameC10.disqualifyPlayer 9 = some gameC10 ∧
    gameC10.disqualifyPlayer 7 = some gameC10dup :=
  ⟨(claim_C10 gameC10 [7] 9 rfl).1 (by decide),
   by
     have h := (claim_C10 gameC10 [7] 7 rfl).2.2 rfl
     simpa [gameC10, gameC10dup] using h⟩

/-- Claim C6: on a deck sequence produced honestly (every shuffle step a
permutation of the re-encryption with the revealed shuffle secret, every lock
step the exact decrypt-and-relock with the revealed secrets), `verify`
returns the empty list of unfair ids; and whenever the sorted-comparison
shuffle check or the positional lock check fails for the player at position
`i`, that player id is in the returned list. The result is only returned —
`verify` is a pure function and writes no field, in particular not
`disqualifiedPlayerIds`. -/
theorem claim_C6 {n : ℕ} [NeZero n] :
    (∀ (g : Game n) (s : List (ℕ × Scalar n)),
      Game.honestShuffles g → Game.honestLocks g → g.verify s = []) ∧
    (∀ (g : Game n) (s : List (ℕ × Scalar n)) (i : ℕ),
      i < g.players.length → g.fairAt i = false →
      (g.players.getD i default).id ∈ g.verify s) := by
  constructor
  · intro g s hsh hlk
    have hnil : ((List.range g.players.length).reverse).filter
        (fun i => !(g.fairAt i)) = [] := by
      apply List.filter_eq_nil_iff.mpr
      intro a ha
      rw [List.mem_reverse, List.mem_range] at ha
      have hfair : g.fairAt a = true := by
        unfold Game.fairAt
        rw [Bool.and_eq_true, beq_iff_eq, beq_iff_eq]
        exact ⟨(sortPoints_perm_congr (hsh a ha)).symm,
          congrArg Deck.points (hlk a ha).symm⟩
      simp [hfair]
    unfold Game.verify
    rw [hnil, List.map_nil]
  · intro g s i hi hfa
    unfold Game.verify
    exact List.mem_map.mpr ⟨i,
      List.mem_filter.mpr
        ⟨List.mem_reverse.mpr (List.mem_range.mpr hi), by simp [hfa]⟩, rfl⟩

/-- Self player for the C6 witness: lock secret 2, shuffle secret 3. -/
def playerC6 : Player 5 := ⟨0, true, [], [2, 3], [], false⟩

/-- Honest one-player game for the C6 witness: initial deck `[1]`, shuffle
step re-encrypts with 3 giving `[3]`, lock step decrypts with 3 and locks
with 2 giving `[2]`. -/
def gameC6 : Game 5 :=
  ⟨[playerC6], [⟨[1]⟩, ⟨[3]⟩, ⟨[2]⟩], [], [], some [], none⟩

/-- Claim C6, witness: the concrete honest game verifies with no unfair
player ids. -/
theorem claim_C6_witness :
    Game.honestShuffles gameC6 ∧ Game.honestLocks gameC6 ∧
    gameC6.verify [] = [] :=
  ⟨by decide, by decide, claim_C6.1 gameC6 [] (by decide) (by decide)⟩

end MentalPoker
